import Mathlib

/-!
Verification of the `collider` continuous 2D collision-detection library
(DurHitbox pair solver and its numeric utilities).

The source computes with `rug::float::OrdFloat` values: arbitrary-precision
(MPFR) floating-point numbers equipped with the total IEEE-style order
`-NaN < -inf < finite < +inf < +NaN`.  The shallow embedding below models the
scalar as an exact rational extended with `ninf` (-inf), `pinf` (+inf) and a
single `nan` placed above `pinf` (rug orders positive NaN above +infinity; the
MPFR operations that produce a NaN leave its sign unspecified, and every NaN
produced on the solver paths studied here is promoted to `pinf` or discarded
before it can reach an output, so a single top NaN suffices).  Finite
arithmetic is modelled exactly: the code runs at maximal precision and the
specification treats the scalar as an abstract ordered field, so no rounding
is modelled.  Signed zeros are not distinguished; the solver paths compare
against plain `0` and promote any `±0`-sign discrepancy to the same final
result.  Fallible operations (`unwrap`, assertions) are modelled with
`Option`, `none` standing for an abnormal termination of the Rust code.
-/

namespace Collider

/-- The scalar: an exact rational extended with the special values of
`rug::float::OrdFloat`.  `nan` sits above `pinf` in the total order. -/
inductive F : Type where
  | ninf : F
  | fin : ℚ → F
  | pinf : F
  | nan : F
deriving DecidableEq, Repr

namespace F

/-- Total-order comparison on `F`, mirroring the `Ord` instance of
`rug::float::OrdFloat` (with the produced NaN modelled as positive NaN). -/
def ble : F → F → Bool
  | _, nan => true
  | nan, _ => false
  | ninf, _ => true
  | _, ninf => false
  | fin p, fin q => p ≤ q
  | _, pinf => true
  | pinf, _ => false

instance : LE F := ⟨fun a b => F.ble a b = true⟩

instance : LT F := ⟨fun a b => ¬ (b ≤ a)⟩

theorem le_def (a b : F) : (a ≤ b) = (F.ble a b = true) := rfl

theorem lt_def (a b : F) : (a < b) = ¬ (b ≤ a) := rfl

instance decidableLe : ∀ a b : F, Decidable (a ≤ b) := fun a b =>
  inferInstanceAs (Decidable (F.ble a b = true))

instance decidableLt : ∀ a b : F, Decidable (a < b) := fun a b =>
  inferInstanceAs (Decidable (¬ b ≤ a))

theorem ble_refl (a : F) : F.ble a a = true := by
  cases a <;> simp [F.ble]

theorem ble_trans {a b c : F} (h₁ : F.ble a b = true) (h₂ : F.ble b c = true) :
    F.ble a c = true := by
  cases a <;> cases b <;> cases c <;> simp_all [F.ble] <;> exact le_trans h₁ h₂

theorem ble_antisymm {a b : F} (h₁ : F.ble a b = true) (h₂ : F.ble b a = true) :
    a = b := by
  cases a <;> cases b <;> simp_all [F.ble] <;> exact le_antisymm h₁ h₂

theorem ble_total (a b : F) : F.ble a b = true ∨ F.ble b a = true := by
  cases a <;> cases b <;> simp [F.ble] <;> exact le_total _ _

instance : LinearOrder F where
  le_refl := ble_refl
  le_trans _ _ _ := ble_trans
  le_antisymm _ _ := ble_antisymm
  le_total := ble_total
  lt_iff_le_not_le a b := by
    constructor
    · intro h
      rcases ble_total a b with h' | h'
      · exact ⟨h', h⟩
      · exact absurd h' h
    · intro h
      exact h.2
  decidableLE := decidableLe
  decidableLT := decidableLt

/-- Negation (exact; MPFR negation is exact). -/
def neg : F → F
  | nan => nan
  | ninf => pinf
  | pinf => ninf
  | fin q => fin (-q)

instance : Neg F := ⟨F.neg⟩

/-- Addition with the MPFR special-value rules (`inf + -inf = nan`). -/
def add : F → F → F
  | nan, _ => nan
  | _, nan => nan
  | ninf, pinf => nan
  | pinf, ninf => nan
  | pinf, _ => pinf
  | _, pinf => pinf
  | ninf, _ => ninf
  | _, ninf => ninf
  | fin p, fin q => fin (p + q)

instance : Add F := ⟨F.add⟩

instance : Sub F := ⟨fun a b => F.add a (F.neg b)⟩

/-- Multiplication with the MPFR special-value rules (`0 * inf = nan`). -/
def mul : F → F → F
  | nan, _ => nan
  | _, nan => nan
  | pinf, pinf => pinf
  | pinf, ninf => ninf
  | ninf, pinf => ninf
  | ninf, ninf => pinf
  | pinf, fin q => if q = 0 then nan else if 0 < q then pinf else ninf
  | fin q, pinf => if q = 0 then nan else if 0 < q then pinf else ninf
  | ninf, fin q => if q = 0 then nan else if 0 < q then ninf else pinf
  | fin q, ninf => if q = 0 then nan else if 0 < q then ninf else pinf
  | fin p, fin q => fin (p * q)

instance : Mul F := ⟨F.mul⟩

/-- Division with the MPFR special-value rules.  A nonzero finite value divided
by (unsigned) zero gives the infinity matching the numerator's sign, `0/0`,
`inf/inf` give `nan`, and a finite value divided by an infinity gives `0`. -/
def div : F → F → F
  | nan, _ => nan
  | _, nan => nan
  | pinf, pinf => nan
  | pinf, ninf => nan
  | ninf, pinf => nan
  | ninf, ninf => nan
  | pinf, fin q => if 0 ≤ q then pinf else ninf
  | ninf, fin q => if 0 ≤ q then ninf else pinf
  | fin _, pinf => fin 0
  | fin _, ninf => fin 0
  | fin p, fin q =>
      if q = 0 then (if p = 0 then nan else if 0 < p then pinf else ninf)
      else fin (p / q)

instance : Div F := ⟨F.div⟩

/-- Absolute value. -/
def abs : F → F
  | nan => nan
  | ninf => pinf
  | pinf => pinf
  | fin q => fin |q|

theorem add_def (a b : F) : a + b = F.add a b := rfl

theorem sub_def (a b : F) : a - b = F.add a (F.neg b) := rfl

theorem neg_def (a : F) : -a = F.neg a := rfl

theorem mul_def (a b : F) : a * b = F.mul a b := rfl

theorem div_def (a b : F) : a / b = F.div a b := rfl

@[simp] theorem le_nan (x : F) : x ≤ nan := by
  show F.ble x nan = true; cases x <;> rfl

@[simp] theorem ninf_le (x : F) : ninf ≤ x := by
  show F.ble ninf x = true; cases x <;> rfl

@[simp] theorem fin_le_fin {p q : ℚ} : (fin p ≤ fin q) ↔ p ≤ q := by
  show F.ble (fin p) (fin q) = true ↔ _; simp [F.ble]

@[simp] theorem fin_lt_fin {p q : ℚ} : (fin p < fin q) ↔ p < q := by
  rw [lt_def]; simp

@[simp] theorem nan_le_iff {x : F} : (nan ≤ x) ↔ x = nan := by
  cases x <;> simp [le_def, F.ble]

@[simp] theorem not_pinf_le_fin {q : ℚ} : ¬ (pinf ≤ fin q) := by
  simp [le_def, F.ble]

@[simp] theorem not_pinf_le_ninf : ¬ (pinf ≤ ninf) := by
  simp [le_def, F.ble]

@[simp] theorem not_fin_le_ninf {q : ℚ} : ¬ (fin q ≤ ninf) := by
  simp [le_def, F.ble]

@[simp] theorem le_pinf_iff {x : F} : (x ≤ pinf) ↔ x ≠ nan := by
  cases x <;> simp [le_def, F.ble]

@[simp] theorem fin_lt_pinf {q : ℚ} : fin q < pinf := by
  rw [lt_def]; simp

@[simp] theorem ninf_lt_fin {q : ℚ} : ninf < fin q := by
  rw [lt_def]; simp

@[simp] theorem ninf_lt_pinf : ninf < pinf := by
  rw [lt_def]; simp

@[simp] theorem lt_nan_iff {x : F} : (x < nan) ↔ x ≠ nan := by
  rw [lt_def]; simp

@[simp] theorem not_nan_lt (x : F) : ¬ (nan < x) := by
  rw [lt_def]; simp

@[simp] theorem not_pinf_lt_fin {q : ℚ} : ¬ (pinf < fin q) := by
  rw [lt_def]; simp [le_def, F.ble]

@[simp] theorem not_fin_lt_ninf {q : ℚ} : ¬ (fin q < ninf) := by
  rw [lt_def]; simp

@[simp] theorem fin_add_fin (p q : ℚ) : fin p + fin q = fin (p + q) := rfl

@[simp] theorem fin_sub_fin (p q : ℚ) : fin p - fin q = fin (p - q) := by
  show F.add _ (F.neg _) = _
  simp [F.add, F.neg, sub_eq_add_neg]

@[simp] theorem neg_fin (p : ℚ) : -(fin p) = fin (-p) := rfl

@[simp] theorem neg_pinf : -(pinf : F) = ninf := rfl

@[simp] theorem neg_ninf : -(ninf : F) = pinf := rfl

@[simp] theorem fin_mul_fin (p q : ℚ) : fin p * fin q = fin (p * q) := rfl

@[simp] theorem fin_div_fin (p q : ℚ) (h : q ≠ 0) : fin p / fin q = fin (p / q) := by
  show F.div _ _ = _
  simp [F.div, h]

@[simp] theorem fin_add_pinf (p : ℚ) : fin p + pinf = pinf := rfl

@[simp] theorem pinf_add_fin (p : ℚ) : pinf + fin p = pinf := rfl

@[simp] theorem pinf_add_pinf : (pinf : F) + pinf = pinf := rfl

@[simp] theorem fin_sub_pinf (p : ℚ) : fin p - pinf = ninf := rfl

@[simp] theorem pinf_sub_fin (p : ℚ) : pinf - fin p = pinf := rfl

theorem addF_comm (a b : F) : a + b = b + a := by
  cases a <;> cases b <;> simp [add_def, F.add] <;> ring

theorem addF_assoc (a b c : F) : a + b + c = a + (b + c) := by
  cases a <;> cases b <;> cases c <;> simp [add_def, F.add] <;> ring

theorem negF_negF (a : F) : -(-a) = a := by
  cases a <;> simp [neg_def, F.neg]

theorem negF_addF (a b : F) : -(a + b) = -a + -b := by
  cases a <;> cases b <;> simp [add_def, neg_def, F.neg, F.add] <;> ring

theorem negF_mulF_negF (a b : F) : -a * -b = a * b := by
  cases a <;> cases b <;>
    simp only [mul_def, neg_def, F.neg, F.mul] <;>
    first
    | rw [neg_mul_neg]
    | rfl
    | (split_ifs <;> simp_all [neg_eq_zero] <;>
        first
        | linarith
        | (have h0 := le_antisymm (show (_ : ℚ) ≤ 0 by assumption)
            (show (0 : ℚ) ≤ _ by assumption)
           simp_all))

end F

open F (ninf fin pinf nan)

/-- `geom::vec::Vec2` (src/geom/vec.rs): a 2-D Cartesian vector.  The source
documents its coordinates as finite `OrdFloat` values; intermediate vectors
inside the solver can nonetheless carry special values, so the components
range over all of `F`. -/
structure Vec2 where
  x : F
  y : F
deriving DecidableEq, Repr

namespace Vec2

/-- `Vec2::new` / the `v2` shorthand. -/
def new (x y : F) : Vec2 := ⟨x, y⟩

/-- `Vec2::zero`. -/
def zero : Vec2 := ⟨fin 0, fin 0⟩

instance : Add Vec2 := ⟨fun a b => ⟨a.x + b.x, a.y + b.y⟩⟩

instance : Sub Vec2 := ⟨fun a b => ⟨a.x - b.x, a.y - b.y⟩⟩

instance : Neg Vec2 := ⟨fun a => ⟨-a.x, -a.y⟩⟩

/-- `Mul<OrdFloat> for Vec2`: scaling. -/
instance : HMul Vec2 F Vec2 := ⟨fun a s => ⟨a.x * s, a.y * s⟩⟩

/-- `Mul<Vec2> for Vec2`: the dot product. -/
instance : HMul Vec2 Vec2 F := ⟨fun a b => a.x * b.x + a.y * b.y⟩

/-- `Vec2::len_sq`. -/
def len_sq (v : Vec2) : F := v.x * v.x + v.y * v.y

@[simp] theorem mk_add_mk (a b c d : F) :
    (⟨a, b⟩ + ⟨c, d⟩ : Vec2) = ⟨a + c, b + d⟩ := rfl

@[simp] theorem mk_sub_mk (a b c d : F) :
    (⟨a, b⟩ - ⟨c, d⟩ : Vec2) = ⟨a - c, b - d⟩ := rfl

@[simp] theorem neg_mk (a b : F) : (-(⟨a, b⟩ : Vec2)) = ⟨-a, -b⟩ := rfl

@[simp] theorem mk_smul (a b s : F) : ((⟨a, b⟩ : Vec2) * s) = ⟨a * s, b * s⟩ := rfl

@[simp] theorem mk_dot_mk (a b c d : F) :
    ((⟨a, b⟩ : Vec2) * (⟨c, d⟩ : Vec2)) = a * c + b * d := rfl

@[simp] theorem len_sq_mk (a b : F) : Vec2.len_sq ⟨a, b⟩ = a * a + b * b := rfl

@[simp] theorem zero_eq_mk : Vec2.zero = ⟨fin 0, fin 0⟩ := rfl

end Vec2

/-- `geom::card::Card` (src/geom/card.rs): the four cardinal directions. -/
inductive Card : Type where
  | minusX : Card
  | minusY : Card
  | plusX : Card
  | plusY : Card
deriving DecidableEq, Repr

namespace Card

/-- `Card::flip`. -/
def flip : Card → Card
  | minusX => plusX
  | plusX => minusX
  | minusY => plusY
  | plusY => minusY

/-- `Card::values`, in the source's order. -/
def values : List Card := [minusX, minusY, plusX, plusY]

end Card

/-- The data of the `PlacedBounds` trait of `geom::shape` (a center together
with a dims vector).  `PlacedShape` views `(pos, shape.dims)` through it and
`DurHbVel` views `(value, resize)` (src/core/dur_hitbox/mod.rs lines 65-72). -/
structure Bounds where
  center : Vec2
  dims : Vec2

namespace Bounds

/-- Modelled from the spec: `PlacedBounds::min_x`, the low x edge of an
axis-aligned box of the given center and dims (the shape module of the
repository is not under src/; §4.1 of the spec describes its operations, and
src/geom/shape/tests.rs `test_edges` fixes the formulas). -/
def min_x (b : Bounds) : F := b.center.x - b.dims.x * fin (1/2)

/-- Modelled from the spec: `PlacedBounds::min_y` (see `Bounds.min_x`). -/
def min_y (b : Bounds) : F := b.center.y - b.dims.y * fin (1/2)

/-- Modelled from the spec: `PlacedBounds::max_x` (see `Bounds.min_x`). -/
def max_x (b : Bounds) : F := b.center.x + b.dims.x * fin (1/2)

/-- Modelled from the spec: `PlacedBounds::max_y` (see `Bounds.min_x`). -/
def max_y (b : Bounds) : F := b.center.y + b.dims.y * fin (1/2)

/-- Modelled from the spec: the signed extent of the box in one cardinal
direction (`x ≤ max_x` reads `edge plusX = max_x`, `min_x ≤ x` reads
`edge minusX = -min_x`), the helper through which the shape module reduces
overlap tests to sums of edges. -/
def edge (b : Bounds) : Card → F
  | Card.minusX => -b.min_x
  | Card.minusY => -b.min_y
  | Card.plusX => b.max_x
  | Card.plusY => b.max_y

/-- Modelled from the spec (§4.1): `card_overlap(a, b, card)` returns the
signed penetration along `card`, positive when `a` extends past `b`'s
corresponding edge: along `plusX` it is `b.max_x - a.min_x`, and in general
`a.edge(card.flip()) + b.edge(card)` (the normals tests of
src/geom/shape/tests.rs fix the orientation). -/
def card_overlap (dst src : Bounds) (c : Card) : F :=
  dst.edge c.flip + src.edge c

/-- Modelled from the spec (§4.2, glossary "Sector"): the corner of the box
named by a corner sector (`Ordering.lt` on an axis selects the low edge).
Only consulted on corner sectors; on a centered axis the center coordinate is
returned. -/
def corner (b : Bounds) (s : Ordering × Ordering) : Vec2 :=
  ⟨match s.1 with
    | Ordering.lt => b.min_x
    | Ordering.gt => b.max_x
    | Ordering.eq => b.center.x,
   match s.2 with
    | Ordering.lt => b.min_y
    | Ordering.gt => b.max_y
    | Ordering.eq => b.center.y⟩

end Bounds

/-- Modelled from the spec (glossary "Sector"): one of the nine regions of a
rectangle's Voronoi partition, an `Ordering` per axis (`lt` = below the low
edge, `eq` = between the edges, `gt` = above the high edge). -/
def Sector : Type := Ordering × Ordering

/-- Modelled from the spec: which side of the interval `[lo, hi]` a value
falls on. -/
def sector_ord (value lo hi : F) : Ordering :=
  if value < lo then Ordering.lt else if hi < value then Ordering.gt else Ordering.eq

/-- Modelled from the spec: `Sector::is_corner`, true when both axes are off
center. -/
def Sector.is_corner (s : Sector) : Bool :=
  s.1 ≠ Ordering.eq ∧ s.2 ≠ Ordering.eq

/-- `geom::shape::ShapeKind`. -/
inductive ShapeKind : Type where
  | rect : ShapeKind
  | circle : ShapeKind
deriving DecidableEq, Repr

/-- `geom::shape::Shape`: a kind together with a dims vector (for a circle
the dims are `(d, d)` where `d` is the diameter, §3 of the spec). -/
structure Shape where
  kind : ShapeKind
  dims : Vec2
deriving DecidableEq, Repr

namespace Shape

/-- Modelled from the spec: `Shape::new` asserts that a circle's width equals
its height (§3: "for circles, resize.x must equal resize.y ...;
implementations assert this", and the repository's `test_illegal_circle_advance`
expects exactly this panic out of `advance`).  `none` models the panic.
Dims nonnegativity is a caller-side precondition surfaced by the engine's
public operations (§4.1, §7), not an assertion of this constructor. -/
def new (kind : ShapeKind) (dims : Vec2) : Option Shape :=
  if kind = ShapeKind.circle ∧ dims.x ≠ dims.y then none else some ⟨kind, dims⟩

/-- `Shape::circle`: a circle of diameter `d` (its isotropy check passes by
construction). -/
def circle (d : F) : Shape := ⟨ShapeKind.circle, ⟨d, d⟩⟩

@[simp] theorem new_rect (dims : Vec2) :
    Shape.new ShapeKind.rect dims = some ⟨ShapeKind.rect, dims⟩ := by
  simp [Shape.new]

@[simp] theorem new_circle_iso {dims : Vec2} (h : dims.x = dims.y) :
    Shape.new ShapeKind.circle dims = some ⟨ShapeKind.circle, dims⟩ := by
  simp [Shape.new, h]

/-- `Shape::rect`. -/
def rect (dims : Vec2) : Shape := ⟨ShapeKind.rect, dims⟩

/-- `Shape::square`. -/
def square (d : F) : Shape := ⟨ShapeKind.rect, ⟨d, d⟩⟩

end Shape

/-- `geom::shape::PlacedShape`: a shape at a position. -/
structure PlacedShape where
  pos : Vec2
  shape : Shape
deriving DecidableEq, Repr

namespace PlacedShape

/-- `PlacedShape::kind`. -/
def kind (p : PlacedShape) : ShapeKind := p.shape.kind

/-- `PlacedShape::dims`. -/
def dims (p : PlacedShape) : Vec2 := p.shape.dims

/-- The `PlacedBounds` view of a `PlacedShape`. -/
def bounds (p : PlacedShape) : Bounds := ⟨p.pos, p.shape.dims⟩

/-- `PlacedShape::card_overlap` through the `PlacedBounds` trait. -/
def card_overlap (dst src : PlacedShape) (c : Card) : F :=
  Bounds.card_overlap dst.bounds src.bounds c

/-- Modelled from the spec: `PlacedShape::as_rect`, the same placement with
the shape taken as a rectangle of the same dims (§4.2: "a bounding-rect
approximation of the circle (dims = (d, d))"). -/
def as_rect (p : PlacedShape) : PlacedShape := ⟨p.pos, Shape.rect p.shape.dims⟩

/-- Modelled from the spec (§4.1): the axis-aligned envelope of two
placements, each taken as its axis-aligned bounding rectangle. -/
def bounding_box (p other : PlacedShape) : PlacedShape :=
  let lo : Vec2 := ⟨min p.bounds.min_x other.bounds.min_x,
                    min p.bounds.min_y other.bounds.min_y⟩
  let hi : Vec2 := ⟨max p.bounds.max_x other.bounds.max_x,
                    max p.bounds.max_y other.bounds.max_y⟩
  let dims := hi - lo
  ⟨lo + dims * fin (1/2), Shape.rect dims⟩

/-- Modelled from the spec (§4.1): `advance` moves the position by `vel·t` and
the dims by `resize·t`; the rebuilt shape re-checks the circle contract
(`test_illegal_circle_advance`).  `none` models the panic. -/
def advance (p : PlacedShape) (vel resize : Vec2) (t : F) : Option PlacedShape :=
  (Shape.new p.shape.kind (p.shape.dims + resize * t)).map
    fun s => ⟨p.pos + vel * t, s⟩

/-- Modelled from the spec (§4.2, glossary "Sector"): the Voronoi sector of
the rectangle `p` in which `point` lies. -/
def sector (p : PlacedShape) (point : Vec2) : Sector :=
  ⟨sector_ord point.x p.bounds.min_x p.bounds.max_x,
   sector_ord point.y p.bounds.min_y p.bounds.max_y⟩

/-- `PlacedShape::corner` through the `PlacedBounds` trait. -/
def corner (p : PlacedShape) (s : Sector) : Vec2 := Bounds.corner p.bounds s

/-- Modelled from the spec: whether two axis-aligned boxes overlap — every
cardinal overlap is nonnegative (equivalently the minimum cardinal overlap,
the length of the rect-rect normal, is nonnegative).  The solver only applies
this to the rectangles produced by `bounding_box_for`. -/
def overlaps (p other : PlacedShape) : Bool :=
  Card.values.all fun c => fin 0 ≤ p.card_overlap other c

end PlacedShape

/-- `core::dur_hitbox::DurHbVel` (src/core/dur_hitbox/mod.rs): a velocity
with a validity duration. -/
structure DurHbVel where
  value : Vec2
  resize : Vec2
  duration : F
deriving DecidableEq, Repr

namespace DurHbVel

/-- `DurHbVel::still`. -/
def still : DurHbVel := ⟨Vec2.zero, Vec2.zero, pinf⟩

/-- `DurHbVel::is_still`. -/
def is_still (v : DurHbVel) : Bool := v.value = Vec2.zero ∧ v.resize = Vec2.zero

/-- `DurHbVel::negate`. -/
def negate (v : DurHbVel) : DurHbVel := ⟨-v.value, -v.resize, v.duration⟩

/-- The `PlacedBounds` view of a `DurHbVel` (src/core/dur_hitbox/mod.rs
lines 65-72): center `value`, dims `resize`. -/
def bounds (v : DurHbVel) : Bounds := ⟨v.value, v.resize⟩

/-- `DurHbVel::card_overlap` through the `PlacedBounds` trait. -/
def card_overlap (dst src : DurHbVel) (c : Card) : F :=
  Bounds.card_overlap dst.bounds src.bounds c

/-- `DurHbVel::corner` through the `PlacedBounds` trait. -/
def corner (v : DurHbVel) (s : Sector) : Vec2 := Bounds.corner v.bounds s

end DurHbVel

/-- `core::dur_hitbox::DurHitbox`. -/
structure DurHitbox where
  value : PlacedShape
  vel : DurHbVel
deriving DecidableEq, Repr

namespace DurHitbox

/-- `DurHitbox::new`. -/
def new (value : PlacedShape) : DurHitbox := ⟨value, DurHbVel.still⟩

/-- `DurHitbox::advanced_shape` (`none` models a panic of the underlying
`advance`). -/
def advanced_shape (h : DurHitbox) (time : F) : Option PlacedShape :=
  h.value.advance h.vel.value h.vel.resize time

/-- `DurHitbox::bounding_box_for`. -/
def bounding_box_for (h : DurHitbox) (duration : F) : Option PlacedShape :=
  if h.vel.is_still then some h.value.as_rect
  else (h.advanced_shape duration).map fun e => h.value.bounding_box e

end DurHitbox

/-- `util::approx_square_root`'s seed (src/util.rs `calc_seed`): for a finite
value, `1 << (bits(ceil(value)) / 2)` where `bits` counts the significant
bits of the integer.  The source only consults it for finite values ≥ 1 (the
guards reject negatives, and the solver calls it on finite positive
determinants); on the special values it is modelled as the value itself. -/
def calc_seed (value : F) : F :=
  match value with
  | fin q => fin ((2 : ℚ) ^ (Nat.size (Int.toNat ⌈q⌉) / 2))
  | x => x

/-- src/util.rs `calc_next_x`: one Babylonian step (the source builds the
constant two as `1.0 + 1.0`). -/
def calc_next_x (value x : F) : F := (x + value / x) / (fin 1 + fin 1)

/-- src/util.rs `calc_approx_error`: `|value - x²| / (2x)`. -/
def calc_approx_error (value x : F) : F := F.abs ((value - x * x) / (x * (fin 1 + fin 1)))

/-- The `while calc_approx_error(value, x) > epsilon` loop of
`util::approx_square_root`, with explicit fuel.  Mathematically the distance
of the iterate to the exact root at least halves at every step, so the loop
terminates and any sufficiently large fuel computes its value; no claim below
depends on the approximation returned, only on the guards around it. -/
def sqrt_loop : Nat → F → F → F → F
  | 0, _, _, x => x
  | n + 1, value, eps, x =>
      if eps < calc_approx_error value x then sqrt_loop n value eps (calc_next_x value x)
      else x

/-- `util::approx_square_root` (src/util.rs lines 55-123): `none` models the
`Err` results (negative value, non-positive epsilon); otherwise the Babylonian
iteration refines the seed until the error estimate is within epsilon. -/
def approx_square_root (value epsilon : F) : Option F :=
  if value < fin 0 then none
  else if epsilon ≤ fin 0 then none
  else
    some (sqrt_loop 4096 value epsilon
      (if fin 1 ≤ value then calc_seed value else fin 1 / calc_seed (fin 1 / value)))

/-- `util::quad_root_ascending` (src/util.rs lines 235-253): the ascending
root of `ax² + bx + c`.  The inner `Option` is the source's return value
(`none` = no root); the outer `Option` models the `.unwrap()` of
`approx_square_root` (`none` = panic on an `Err`). -/
def quad_root_ascending (a b c : F) : Option (Option F) :=
  let determinant := b * b - a * c * fin 4
  let epsilon := determinant / fin 1000000
  if determinant ≤ fin 0 then some none
  else if fin 0 ≤ b then
    (approx_square_root determinant epsilon).map fun s => some (c * fin 2 / (-b - s))
  else
    (approx_square_root determinant epsilon).map fun s => some ((-b + s) / (a * fin 2))

/-- The `for card in Card::values()` loop of `rect_rect_time`
(src/core/dur_hitbox/solvers.rs lines 68-101), over the list of
(overlap, overlap rate) pairs, carrying `overlap_start` and `overlap_end`.
Each iteration follows the source: a negative overlap returns `0` on a
separate query, `+∞` on a collide query with a non-positive rate, and raises
`overlap_start` otherwise; a nonnegative overlap with negative rate lowers
`overlap_end`; then `overlap_start ≥ overlap_end` returns `+∞` / `0`. -/
def rect_rect_loop (for_collide : Bool) : List (F × F) → F → F → F
  | [], os, _oe => if for_collide then os else _oe
  | (o, v) :: rest, os, oe =>
      if o < fin 0 then
        if for_collide = false then fin 0
        else if v ≤ fin 0 then pinf
        else
          let os' := max os (-o / v)
          if oe ≤ os' then pinf else rect_rect_loop for_collide rest os' oe
      else
        let oe' := if v < fin 0 then min oe (-o / v) else oe
        if oe' ≤ os then (if for_collide then pinf else fin 0)
        else rect_rect_loop for_collide rest os oe'

/-- The list of (overlap, overlap rate) pairs the `rect_rect_time` loop
consumes, in the order of `Card::values()`. -/
def card_pairs (a b : DurHitbox) : List (F × F) :=
  Card.values.map fun card =>
    (a.value.card_overlap b.value card, a.vel.card_overlap b.vel card)

/-- `rect_rect_time` (src/core/dur_hitbox/solvers.rs lines 68-101). -/
def rect_rect_time (a b : DurHitbox) (for_collide : Bool) : F :=
  rect_rect_loop for_collide (card_pairs a b) (fin 0) pinf

/-- The body of `circle_circle_time` (src/core/dur_hitbox/solvers.rs lines
103-136) as a function of the four symmetric combinations of the two hitboxes
it consumes: the sum of the dims (twice `net_rad`), the difference of the
centers (`dist`), the sum of the resize rates (twice `net_rad_vel`) and the
difference of the velocities (`dist_vel`). -/
def circle_circle_core (for_collide : Bool) (dims_sum : F) (dist : Vec2)
    (resize_sum : F) (dist_vel : Vec2) : Option F :=
  let sign : F := if for_collide then fin 1 else fin (-1)
  let net_rad := dims_sum * fin (1/2)
  let coeff_c := sign * (net_rad * net_rad - dist.len_sq)
  if fin 0 < coeff_c then some (fin 0)
  else
    let net_rad_vel := resize_sum * fin (1/2)
    let coeff_a := sign * (net_rad_vel * net_rad_vel - dist_vel.len_sq)
    let coeff_b := sign * fin 2 * (net_rad * net_rad_vel - dist * dist_vel)
    (quad_root_ascending coeff_a coeff_b coeff_c).map fun root =>
      match root with
      | some r => if fin 0 ≤ r then r else pinf
      | none => pinf

/-- `circle_circle_time` (src/core/dur_hitbox/solvers.rs lines 103-136).
`none` models the panic of the `.unwrap()` inside `quad_root_ascending`. -/
def circle_circle_time (a b : DurHitbox) (for_collide : Bool) : Option F :=
  circle_circle_core for_collide (a.value.dims.x + b.value.dims.x)
    (a.value.pos - b.value.pos) (a.vel.resize.x + b.vel.resize.x)
    (a.vel.value - b.vel.value)

/-- `rebased_rect_circle_collide_time` (src/core/dur_hitbox/solvers.rs lines
186-200): in a corner sector, the collide time of the circle against a
zero-radius circle at the rectangle's corner moving with the corner's
velocity; otherwise `0`. -/
def rebased_rect_circle_collide_time (rect circle : DurHitbox) : Option F :=
  let s := rect.value.sector circle.value.pos
  if s.is_corner then
    let cornerHb : DurHitbox :=
      { value := ⟨rect.value.corner s, Shape.circle (fin 0)⟩,
        vel := { DurHbVel.still with value := rect.vel.corner s } }
    circle_circle_time cornerHb circle true
  else some (fin 0)

/-- `rect_circle_collide_time` (src/core/dur_hitbox/solvers.rs lines
151-163). -/
def rect_circle_collide_time (rect circle : DurHitbox) (duration : F) : Option F :=
  let base_time := rect_rect_time rect circle true
  if duration ≤ base_time then some pinf
  else
    (rect.advanced_shape base_time).bind fun rv =>
    (circle.advanced_shape base_time).bind fun cv =>
    (rebased_rect_circle_collide_time ⟨rv, rect.vel⟩ ⟨cv, circle.vel⟩).map
      fun t => base_time + t

/-- `rect_circle_separate_time` (src/core/dur_hitbox/solvers.rs lines
165-184). -/
def rect_circle_separate_time (rect circle : DurHitbox) : Option F :=
  let base_time := rect_rect_time rect circle false
  if base_time = fin 0 then some (fin 0)
  else
    (rect.advanced_shape base_time).bind fun rv =>
    (circle.advanced_shape base_time).bind fun cv =>
    (rebased_rect_circle_collide_time ⟨rv, rect.vel.negate⟩ ⟨cv, circle.vel.negate⟩).map
      fun t => max (base_time - t) (fin 0)

/-- `rect_circle_time` (src/core/dur_hitbox/solvers.rs lines 138-149). -/
def rect_circle_time (rect circle : DurHitbox) (for_collide : Bool) (duration : F) :
    Option F :=
  if for_collide then rect_circle_collide_time rect circle duration
  else rect_circle_separate_time rect circle

/-- The `result` local of `time_unpadded` (src/core/dur_hitbox/solvers.rs
lines 55-60): dispatch on the shape pairing. -/
def time_unpadded_result (a b : DurHitbox) (for_collide : Bool) (duration : F) :
    Option F :=
  match a.value.kind, b.value.kind with
  | ShapeKind.rect, ShapeKind.rect => some (rect_rect_time a b for_collide)
  | ShapeKind.circle, ShapeKind.circle => circle_circle_time a b for_collide
  | ShapeKind.rect, ShapeKind.circle => rect_circle_time a b for_collide duration
  | ShapeKind.circle, ShapeKind.rect => rect_circle_time b a for_collide duration

/-- `time_unpadded` (src/core/dur_hitbox/solvers.rs lines 54-66): dispatch on
the shape pairing, then promote any result at or past the duration to `+∞`. -/
def time_unpadded (a b : DurHitbox) (for_collide : Bool) (duration : F) : Option F :=
  (time_unpadded_result a b for_collide duration).map fun r =>
    if duration ≤ r then pinf else r

/-- `collide_time` (src/core/dur_hitbox/solvers.rs lines 28-37). -/
def collide_time (a b : DurHitbox) : Option F :=
  let duration := min a.vel.duration b.vel.duration
  (a.bounding_box_for duration).bind fun ba =>
  (b.bounding_box_for duration).bind fun bb =>
  if ba.overlaps bb then time_unpadded a b true duration
  else some pinf

/-- `separate_time` (src/core/dur_hitbox/solvers.rs lines 39-52): swap a
mixed pair so the circle comes first, inflate the first hitbox's dims by
twice the padding (re-running the shape contract check), and run the solver
unpadded. -/
def separate_time (a b : DurHitbox) (padding : F) : Option F :=
  let swapped :=
    match a.value.kind, b.value.kind with
    | ShapeKind.rect, ShapeKind.circle => (b, a)
    | _, _ => (a, b)
  let a' := swapped.1
  let b' := swapped.2
  (Shape.new a'.value.kind (a'.value.dims + (Vec2.new padding padding) * fin 2)).bind
    fun s =>
      time_unpadded ⟨⟨a'.value.pos, s⟩, a'.vel⟩ b' false
        (min a'.vel.duration b'.vel.duration)

/-! ### The duration clamp (claim C1) -/

theorem time_unpadded_clamp {a b : DurHitbox} {fc : Bool} {d x : F}
    (h : time_unpadded a b fc d = some x) : x = pinf ∨ x < d := by
  unfold time_unpadded at h
  cases hres : time_unpadded_result a b fc d with
  | none => rw [hres] at h; simp at h
  | some r =>
    rw [hres] at h
    simp only [Option.map_some', Option.some.injEq] at h
    by_cases hd : d ≤ r
    · left
      rw [if_pos hd] at h
      exact h.symm
    · right
      rw [if_neg hd] at h
      exact h ▸ not_le.mp hd

/-- C1: `collide_time(a, b)` and `separate_time(a, b, padding)` clamp against
`d = min(a.vel.duration, b.vel.duration)`: whenever they return normally, the
returned value is either `+∞` (the promotion of any computed event time at or
past `d`, or of an empty bounding-box intersection) or strictly less than
`d`. -/
theorem spec_c1_duration_clamp (a b : DurHitbox) (padding x y : F) :
    (collide_time a b = some x →
      x = pinf ∨ x < min a.vel.duration b.vel.duration) ∧
    (separate_time a b padding = some y →
      y = pinf ∨ y < min a.vel.duration b.vel.duration) := by
  constructor
  · intro h
    simp only [collide_time] at h
    cases h1 : a.bounding_box_for (min a.vel.duration b.vel.duration) with
    | none => rw [h1] at h; simp at h
    | some ba =>
      cases h2 : b.bounding_box_for (min a.vel.duration b.vel.duration) with
      | none => rw [h1, h2] at h; simp at h
      | some bb =>
        rw [h1, h2] at h
        simp only [Option.some_bind] at h
        split at h
        · exact time_unpadded_clamp h
        · left
          exact (Option.some.inj h).symm
  · intro h
    simp only [separate_time] at h
    rcases hka : a.value.kind <;> rcases hkb : b.value.kind <;>
      rw [hka, hkb] at h <;>
      simp only [] at h <;>
      [skip; rw [min_comm a.vel.duration b.vel.duration]; skip; skip] <;>
      cases hs : Shape.new _ _ <;>
      rw [hs] at h <;>
      first
      | exact time_unpadded_clamp (by simpa using h)
      | simp at h

/-! ### Concrete sample hitboxes (the rectangles of `test_rect_rect_collision`,
src/core/dur_hitbox/mod.rs lines 158-209: they collide at `t = 7` and are
already separated at padding `0.1`). -/

def sample_rect_a : DurHitbox :=
  { value := ⟨⟨fin (-11), fin 0⟩, ⟨ShapeKind.rect, ⟨fin 2, fin 2⟩⟩⟩,
    vel := ⟨⟨fin 2, fin 0⟩, ⟨fin 0, fin 0⟩, fin 100⟩ }

def sample_rect_b : DurHitbox :=
  { value := ⟨⟨fin 12, fin 2⟩, ⟨ShapeKind.rect, ⟨fin 2, fin 4⟩⟩⟩,
    vel := ⟨⟨fin (-(1/2)), fin 0⟩, ⟨fin 1, fin 0⟩, fin 100⟩ }

theorem sample_collide_eval : collide_time sample_rect_a sample_rect_b = some (fin 7) := by
  norm_num [collide_time, sample_rect_a, sample_rect_b, DurHitbox.bounding_box_for,
    DurHbVel.is_still, DurHitbox.advanced_shape, PlacedShape.advance,
    PlacedShape.bounding_box, PlacedShape.as_rect, PlacedShape.overlaps,
    PlacedShape.card_overlap, Bounds.card_overlap, Bounds.edge, Bounds.min_x,
    Bounds.min_y, Bounds.max_x, Bounds.max_y, PlacedShape.bounds, Card.values,
    Card.flip, time_unpadded, time_unpadded_result, PlacedShape.kind,
    rect_rect_time, card_pairs, rect_rect_loop, DurHbVel.card_overlap,
    DurHbVel.bounds, Shape.rect, PlacedShape.dims, min_def, max_def, Vec2.new]

theorem sample_separate_eval :
    separate_time sample_rect_a sample_rect_b (fin (1/10)) = some (fin 0) := by
  norm_num [separate_time, sample_rect_a, sample_rect_b, time_unpadded,
    time_unpadded_result, PlacedShape.kind, rect_rect_time, card_pairs,
    rect_rect_loop, PlacedShape.card_overlap, Bounds.card_overlap, Bounds.edge,
    Bounds.min_x, Bounds.min_y, Bounds.max_x, Bounds.max_y, PlacedShape.bounds,
    DurHbVel.card_overlap, DurHbVel.bounds, Card.values, Card.flip,
    PlacedShape.dims, min_def, max_def, Vec2.new]

/-- Witness for C1: at the sample pair, `collide_time` returns `7` and
`separate_time` returns `0`, both strictly below the duration clamp `100`. -/
theorem spec_c1_duration_clamp_witness :
    (fin 7 = pinf ∨
      fin 7 < min sample_rect_a.vel.duration sample_rect_b.vel.duration) ∧
    (fin 0 = pinf ∨
      fin 0 < min sample_rect_a.vel.duration sample_rect_b.vel.duration) :=
  ⟨(spec_c1_duration_clamp sample_rect_a sample_rect_b (fin (1/10)) (fin 7)
      (fin 0)).1 sample_collide_eval,
   (spec_c1_duration_clamp sample_rect_a sample_rect_b (fin (1/10)) (fin 7)
      (fin 0)).2 sample_separate_eval⟩

/-! ### Negative-overlap axes (claim C4) -/

theorem rect_rect_loop_false_of_neg {l : List (F × F)} {os oe : F}
    (h : ∃ p ∈ l, p.1 < fin 0) : rect_rect_loop false l os oe = fin 0 := by
  induction l generalizing os oe with
  | nil => simp at h
  | cons hd tl ih =>
    obtain ⟨p, hp, hneg⟩ := h
    obtain ⟨o, v⟩ := hd
    rw [rect_rect_loop]
    dsimp only
    rcases List.mem_cons.mp hp with rfl | hmem
    · rw [if_pos hneg]
      simp
    · by_cases ho : o < fin 0
      · rw [if_pos ho]
        simp
      · rw [if_neg ho]
        by_cases hexit : (if v < fin 0 then min oe (-o / v) else oe) ≤ os
        · rw [if_pos hexit]
          simp
        · rw [if_neg hexit]
          exact ih ⟨p, hmem, hneg⟩

theorem rect_rect_loop_true_of_blocked {l : List (F × F)} {os oe : F}
    (h : ∃ p ∈ l, p.1 < fin 0 ∧ p.2 ≤ fin 0) :
    rect_rect_loop true l os oe = pinf := by
  induction l generalizing os oe with
  | nil => simp at h
  | cons hd tl ih =>
    obtain ⟨p, hp, hneg, hvel⟩ := h
    obtain ⟨o, v⟩ := hd
    rw [rect_rect_loop]
    dsimp only
    rcases List.mem_cons.mp hp with rfl | hmem
    · rw [if_pos hneg, if_neg (by simp : ¬ (true = false)), if_pos hvel]
    · by_cases ho : o < fin 0
      · rw [if_pos ho, if_neg (by simp : ¬ (true = false))]
        by_cases hv : v ≤ fin 0
        · rw [if_pos hv]
        · rw [if_neg hv]
          by_cases hexit : oe ≤ max os (-o / v)
          · rw [if_pos hexit]
          · rw [if_neg hexit]
            exact ih ⟨p, hmem, hneg, hvel⟩
      · rw [if_neg ho]
        by_cases hexit : (if v < fin 0 then min oe (-o / v) else oe) ≤ os
        · rw [if_pos hexit]
          simp
        · rw [if_neg hexit]
          exact ih ⟨p, hmem, hneg, hvel⟩

theorem card_mem_values (c : Card) : c ∈ Card.values := by
  cases c <;> simp [Card.values]

/-- C4: in the rect × rect solver, an axis with negative present overlap
forces the outcome: on a collide query a non-positive overlap rate on that
axis gives `+∞`, and on a separate query any such axis gives `0`. -/
theorem spec_c4_negative_overlap_axis (a b : DurHitbox) (c : Card) :
    (a.value.card_overlap b.value c < fin 0 →
      a.vel.card_overlap b.vel c ≤ fin 0 → rect_rect_time a b true = pinf) ∧
    (a.value.card_overlap b.value c < fin 0 → rect_rect_time a b false = fin 0) := by
  have hmem : (a.value.card_overlap b.value c, a.vel.card_overlap b.vel c) ∈
      card_pairs a b :=
    List.mem_map.mpr ⟨c, card_mem_values c, rfl⟩
  constructor
  · intro ho hv
    exact rect_rect_loop_true_of_blocked ⟨_, hmem, ho, hv⟩
  · intro ho
    exact rect_rect_loop_false_of_neg ⟨_, hmem, ho⟩

/-- Two rectangles already separated along `minusX` and moving apart. -/
def apart_rect_a : DurHitbox :=
  { value := ⟨⟨fin 0, fin 0⟩, ⟨ShapeKind.rect, ⟨fin 2, fin 2⟩⟩⟩,
    vel := ⟨⟨fin (-1), fin 0⟩, ⟨fin 0, fin 0⟩, fin 100⟩ }

/-- See `apart_rect_a`. -/
def apart_rect_b : DurHitbox :=
  { value := ⟨⟨fin 10, fin 0⟩, ⟨ShapeKind.rect, ⟨fin 2, fin 2⟩⟩⟩,
    vel := ⟨⟨fin 1, fin 0⟩, ⟨fin 0, fin 0⟩, fin 100⟩ }

/-- Witness for C4 at a pair separated along `minusX` (overlap `-8`, rate
`-2`): the collide query gives `+∞` and the separate query gives `0`. -/
theorem spec_c4_negative_overlap_axis_witness :
    rect_rect_time apart_rect_a apart_rect_b true = pinf ∧
    rect_rect_time apart_rect_a apart_rect_b false = fin 0 :=
  ⟨(spec_c4_negative_overlap_axis apart_rect_a apart_rect_b Card.minusX).1
      (by norm_num [apart_rect_a, apart_rect_b, PlacedShape.card_overlap,
        Bounds.card_overlap, Bounds.edge, Bounds.min_x, Bounds.max_x,
        PlacedShape.bounds, Card.flip])
      (by norm_num [apart_rect_a, apart_rect_b, DurHbVel.card_overlap,
        Bounds.card_overlap, Bounds.edge, Bounds.min_x, Bounds.max_x,
        DurHbVel.bounds, Card.flip]),
   (spec_c4_negative_overlap_axis apart_rect_a apart_rect_b Card.minusX).2
      (by norm_num [apart_rect_a, apart_rect_b, PlacedShape.card_overlap,
        Bounds.card_overlap, Bounds.edge, Bounds.min_x, Bounds.max_x,
        PlacedShape.bounds, Card.flip])⟩

/-! ### Symmetry (claim C2) -/

theorem addF_shuffle (x y p : F) : x + p + y = y + p + x := by
  rw [F.addF_comm x p, F.addF_assoc, F.addF_comm x y, ← F.addF_assoc,
    F.addF_comm p y]

theorem negF_subF (x y : F) : -(x - y) = y - x := by
  show F.neg (F.add x (F.neg y)) = F.add y (F.neg x)
  cases x <;> cases y <;> simp [F.neg, F.add] <;> ring

theorem flip_flip (c : Card) : c.flip.flip = c := by
  cases c <;> rfl

theorem vec_neg_sub (u v : Vec2) : -(u - v) = v - u := by
  obtain ⟨ux, uy⟩ := u
  obtain ⟨vx, vy⟩ := v
  show (⟨F.neg (F.add ux (F.neg vx)), F.neg (F.add uy (F.neg vy))⟩ : Vec2) = _
  have hx := negF_subF ux vx
  have hy := negF_subF uy vy
  exact congrArg₂ Vec2.mk hx hy

theorem vec_len_sq_neg (u : Vec2) : (-u).len_sq = u.len_sq := by
  obtain ⟨ux, uy⟩ := u
  show -ux * -ux + -uy * -uy = _
  rw [F.negF_mulF_negF, F.negF_mulF_negF]
  rfl

theorem vec_dot_neg_neg (u v : Vec2) : (-u) * (-v) = u * v := by
  obtain ⟨ux, uy⟩ := u
  obtain ⟨vx, vy⟩ := v
  show -ux * -vx + -uy * -vy = _
  rw [F.negF_mulF_negF, F.negF_mulF_negF]
  rfl

theorem circle_circle_core_neg (fc : Bool) (ds rs : F) (d dv : Vec2) :
    circle_circle_core fc ds (-d) rs (-dv) = circle_circle_core fc ds d rs dv := by
  unfold circle_circle_core
  rw [vec_len_sq_neg, vec_len_sq_neg, vec_dot_neg_neg]

theorem circle_circle_time_symm (a b : DurHitbox) (fc : Bool) :
    circle_circle_time b a fc = circle_circle_time a b fc := by
  unfold circle_circle_time
  rw [F.addF_comm b.value.dims.x a.value.dims.x,
    F.addF_comm b.vel.resize.x a.vel.resize.x,
    show b.value.pos - a.value.pos = -(a.value.pos - b.value.pos) from
      (vec_neg_sub a.value.pos b.value.pos).symm,
    show b.vel.value - a.vel.value = -(a.vel.value - b.vel.value) from
      (vec_neg_sub a.vel.value b.vel.value).symm,
    circle_circle_core_neg]

/-- The `overlap_start` update of one pass of the rect-rect loop, as a fold
step (used only to state the loop's closed form). -/
def entry_step (s : F) (p : F × F) : F :=
  if p.1 < fin 0 then (if p.2 ≤ fin 0 then s else max s (-p.1 / p.2)) else s

/-- The `overlap_end` update of one pass of the rect-rect loop, as a fold
step (used only to state the loop's closed form). -/
def exit_step (e : F) (p : F × F) : F :=
  if p.1 < fin 0 then e else if p.2 < fin 0 then min e (-p.1 / p.2) else e

theorem entry_step_ge (s : F) (p : F × F) : s ≤ entry_step s p := by
  unfold entry_step
  split_ifs <;> first | exact le_refl s | exact le_max_left _ _

theorem exit_step_le (e : F) (p : F × F) : exit_step e p ≤ e := by
  unfold exit_step
  split_ifs <;> first | exact le_refl e | exact min_le_left _ _

theorem foldl_entry_ge (l : List (F × F)) (s : F) : s ≤ l.foldl entry_step s := by
  induction l generalizing s with
  | nil => exact le_refl s
  | cons hd tl ih => exact le_trans (entry_step_ge s hd) (ih _)

theorem foldl_exit_le (l : List (F × F)) (e : F) : l.foldl exit_step e ≤ e := by
  induction l generalizing e with
  | nil => exact le_refl e
  | cons hd tl ih => exact le_trans (ih _) (exit_step_le e hd)

theorem rect_rect_loop_true_eq (l : List (F × F)) (os oe : F) (h : os < oe) :
    rect_rect_loop true l os oe =
      if ∃ p ∈ l, p.1 < fin 0 ∧ p.2 ≤ fin 0 then pinf
      else if l.foldl exit_step oe ≤ l.foldl entry_step os then pinf
      else l.foldl entry_step os := by
  induction l generalizing os oe with
  | nil =>
    have hL : rect_rect_loop true [] os oe = os := rfl
    rw [hL]
    simp only [List.foldl_nil]
    rw [if_neg (by simp), if_neg (not_le.mpr h)]
  | cons hd tl ih =>
    obtain ⟨o, v⟩ := hd
    rw [rect_rect_loop]
    dsimp only
    by_cases ho : o < fin 0
    · rw [if_pos ho, if_neg (by simp : ¬ (true = false))]
      by_cases hv : v ≤ fin 0
      · rw [if_pos hv, if_pos ⟨(o, v), List.mem_cons_self _ _, ho, hv⟩]
      · rw [if_neg hv]
        have hbad : (∃ p ∈ (o, v) :: tl, p.1 < fin 0 ∧ p.2 ≤ fin 0) ↔
            (∃ p ∈ tl, p.1 < fin 0 ∧ p.2 ≤ fin 0) := by
          constructor
          · rintro ⟨p, hp, h1, h2⟩
            rcases List.mem_cons.mp hp with rfl | hm
            · exact absurd h2 hv
            · exact ⟨p, hm, h1, h2⟩
          · rintro ⟨p, hp, hc⟩
            exact ⟨p, List.mem_cons_of_mem _ hp, hc⟩
        have hfe : ((o, v) :: tl).foldl entry_step os =
            tl.foldl entry_step (max os (-o / v)) := by
          rw [List.foldl_cons]
          congr 1
          unfold entry_step
          rw [if_pos ho, if_neg hv]
        have hfx : ((o, v) :: tl).foldl exit_step oe = tl.foldl exit_step oe := by
          rw [List.foldl_cons]
          congr 1
          unfold exit_step
          rw [if_pos ho]
        by_cases hexit : oe ≤ max os (-o / v)
        · rw [if_pos hexit]
          by_cases hbad2 : ∃ p ∈ (o, v) :: tl, p.1 < fin 0 ∧ p.2 ≤ fin 0
          · rw [if_pos hbad2]
          · rw [if_neg hbad2, if_pos (show ((o, v) :: tl).foldl exit_step oe ≤
                ((o, v) :: tl).foldl entry_step os by
              rw [hfe, hfx]
              exact le_trans (foldl_exit_le tl oe)
                (le_trans hexit (foldl_entry_ge tl _)))]
        · rw [if_neg hexit, ih _ _ (not_le.mp hexit)]
          simp only [hbad, hfe, hfx]
    · rw [if_neg ho]
      have hbad : (∃ p ∈ (o, v) :: tl, p.1 < fin 0 ∧ p.2 ≤ fin 0) ↔
          (∃ p ∈ tl, p.1 < fin 0 ∧ p.2 ≤ fin 0) := by
        constructor
        · rintro ⟨p, hp, h1, h2⟩
          rcases List.mem_cons.mp hp with rfl | hm
          · exact absurd h1 ho
          · exact ⟨p, hm, h1, h2⟩
        · rintro ⟨p, hp, hc⟩
          exact ⟨p, List.mem_cons_of_mem _ hp, hc⟩
      have hfe : ((o, v) :: tl).foldl entry_step os = tl.foldl entry_step os := by
        rw [List.foldl_cons]
        congr 1
        unfold entry_step
        rw [if_neg ho]
      have hfx : ((o, v) :: tl).foldl exit_step oe =
          tl.foldl exit_step (if v < fin 0 then min oe (-o / v) else oe) := by
        rw [List.foldl_cons]
        congr 1
        unfold exit_step
        rw [if_neg ho]
      have hle : (if v < fin 0 then min oe (-o / v) else oe) ≤ oe := by
        split
        · exact min_le_left _ _
        · exact le_refl oe
      by_cases hexit : (if v < fin 0 then min oe (-o / v) else oe) ≤ os
      · rw [if_pos hexit]
        by_cases hbad2 : ∃ p ∈ (o, v) :: tl, p.1 < fin 0 ∧ p.2 ≤ fin 0
        · rw [if_pos hbad2]
          rfl
        · rw [if_neg hbad2, if_pos (show ((o, v) :: tl).foldl exit_step oe ≤
              ((o, v) :: tl).foldl entry_step os by
            rw [hfe, hfx]
            exact le_trans (foldl_exit_le tl _)
              (le_trans hexit (foldl_entry_ge tl os)))]
          rfl
      · rw [if_neg hexit, ih _ _ (not_le.mp hexit)]
        simp only [hbad, hfe, hfx]

theorem rect_rect_loop_false_eq (l : List (F × F)) (os oe : F) (h : os < oe) :
    rect_rect_loop false l os oe =
      if ∃ p ∈ l, p.1 < fin 0 then fin 0
      else if l.foldl exit_step oe ≤ os then fin 0
      else l.foldl exit_step oe := by
  induction l generalizing oe with
  | nil =>
    have hL : rect_rect_loop false [] os oe = oe := rfl
    rw [hL]
    simp only [List.foldl_nil]
    rw [if_neg (by simp), if_neg (not_le.mpr h)]
  | cons hd tl ih =>
    obtain ⟨o, v⟩ := hd
    rw [rect_rect_loop]
    dsimp only
    by_cases ho : o < fin 0
    · have hbad2 : ∃ p ∈ (o, v) :: tl, p.1 < fin 0 :=
        ⟨(o, v), List.mem_cons_self _ _, ho⟩
      rw [if_pos ho, if_pos hbad2]
      rfl
    · rw [if_neg ho]
      have hbad : (∃ p ∈ (o, v) :: tl, p.1 < fin 0) ↔ (∃ p ∈ tl, p.1 < fin 0) := by
        constructor
        · rintro ⟨p, hp, h1⟩
          rcases List.mem_cons.mp hp with rfl | hm
          · exact absurd h1 ho
          · exact ⟨p, hm, h1⟩
        · rintro ⟨p, hp, hc⟩
          exact ⟨p, List.mem_cons_of_mem _ hp, hc⟩
      have hfx : ((o, v) :: tl).foldl exit_step oe =
          tl.foldl exit_step (if v < fin 0 then min oe (-o / v) else oe) := by
        rw [List.foldl_cons]
        congr 1
        unfold exit_step
        rw [if_neg ho]
      by_cases hexit : (if v < fin 0 then min oe (-o / v) else oe) ≤ os
      · rw [if_pos hexit]
        by_cases hbad2 : ∃ p ∈ (o, v) :: tl, p.1 < fin 0
        · rw [if_pos hbad2]
          rfl
        · rw [if_neg hbad2, if_pos (show ((o, v) :: tl).foldl exit_step oe ≤ os by
            rw [hfx]
            exact le_trans (foldl_exit_le tl _) hexit)]
          rfl
      · rw [if_neg hexit, ih _ (not_le.mp hexit)]
        simp only [hbad, hfx]


theorem entry_step_right_comm (s : F) (a b : F × F) :
    entry_step (entry_step s a) b = entry_step (entry_step s b) a := by
  unfold entry_step
  split_ifs <;> first | rfl | exact Max.right_comm s _ _

theorem exit_step_right_comm (e : F) (a b : F × F) :
    exit_step (exit_step e a) b = exit_step (exit_step e b) a := by
  unfold exit_step
  split_ifs <;> first | rfl | exact min_right_comm e _ _

theorem foldl_entry_perm {l₁ l₂ : List (F × F)} (hp : l₁.Perm l₂) (s : F) :
    l₁.foldl entry_step s = l₂.foldl entry_step s :=
  hp.foldl_eq' (fun x _ y _ z => entry_step_right_comm z x y) s

theorem foldl_exit_perm {l₁ l₂ : List (F × F)} (hp : l₁.Perm l₂) (e : F) :
    l₁.foldl exit_step e = l₂.foldl exit_step e :=
  hp.foldl_eq' (fun x _ y _ z => exit_step_right_comm z x y) e

theorem exists_mem_perm {l₁ l₂ : List (F × F)} (hp : l₁.Perm l₂)
    (P : F × F → Prop) : (∃ p ∈ l₁, P p) ↔ (∃ p ∈ l₂, P p) := by
  constructor
  · rintro ⟨p, hm, hP⟩
    exact ⟨p, hp.mem_iff.mp hm, hP⟩
  · rintro ⟨p, hm, hP⟩
    exact ⟨p, hp.mem_iff.mpr hm, hP⟩

theorem rect_rect_loop_perm (fc : Bool) {l₁ l₂ : List (F × F)} (hp : l₁.Perm l₂)
    (os oe : F) (h : os < oe) :
    rect_rect_loop fc l₁ os oe = rect_rect_loop fc l₂ os oe := by
  cases fc
  · rw [rect_rect_loop_false_eq _ _ _ h, rect_rect_loop_false_eq _ _ _ h,
      foldl_exit_perm hp]
    simp only [exists_mem_perm hp]
  · rw [rect_rect_loop_true_eq _ _ _ h, rect_rect_loop_true_eq _ _ _ h,
      foldl_exit_perm hp, foldl_entry_perm hp]
    simp only [exists_mem_perm hp]

theorem bounds_card_overlap_swap (x y : Bounds) (c : Card) :
    Bounds.card_overlap y x c = Bounds.card_overlap x y c.flip := by
  unfold Bounds.card_overlap
  rw [flip_flip]
  exact F.addF_comm _ _

theorem values_map_flip_perm (f : Card → F × F) :
    (Card.values.map fun c => f c.flip).Perm (Card.values.map f) := by
  show [f Card.plusX, f Card.plusY, f Card.minusX, f Card.minusY].Perm
    [f Card.minusX, f Card.minusY, f Card.plusX, f Card.plusY]
  exact @List.perm_append_comm _ [f Card.plusX, f Card.plusY]
    [f Card.minusX, f Card.minusY]

theorem card_pairs_perm (a b : DurHitbox) :
    (card_pairs b a).Perm (card_pairs a b) := by
  have hfun : (fun c => (PlacedShape.card_overlap b.value a.value c,
      DurHbVel.card_overlap b.vel a.vel c)) = fun c =>
      ((fun c => (PlacedShape.card_overlap a.value b.value c,
        DurHbVel.card_overlap a.vel b.vel c)) c.flip) := by
    funext c
    dsimp only
    unfold PlacedShape.card_overlap DurHbVel.card_overlap
    rw [bounds_card_overlap_swap a.value.bounds b.value.bounds c,
      bounds_card_overlap_swap a.vel.bounds b.vel.bounds c]
  unfold card_pairs
  rw [hfun]
  exact values_map_flip_perm fun c =>
    (PlacedShape.card_overlap a.value b.value c,
     DurHbVel.card_overlap a.vel b.vel c)

theorem rect_rect_time_symm (a b : DurHitbox) (fc : Bool) :
    rect_rect_time b a fc = rect_rect_time a b fc := by
  unfold rect_rect_time
  exact rect_rect_loop_perm fc (card_pairs_perm a b) (fin 0) pinf (by simp)

theorem mulF_half_shift (d p : F) : (d + p * fin 2) * fin (1/2) = d * fin (1/2) + p := by
  cases d <;> cases p <;>
    simp [F.add_def, F.mul_def, F.add, F.mul] <;>
    first
      | ring
      | norm_num

theorem negF_sub_add (x y q : F) : -(x - (y + q)) = -(x - y) + q := by
  cases x <;> cases y <;> cases q <;>
    simp [F.sub_def, F.add_def, F.neg_def, F.add, F.neg] <;>
    ring

theorem edge_inflate (center dims : Vec2) (p : F) (c : Card) :
    Bounds.edge ⟨center, dims + Vec2.new p p * fin 2⟩ c =
      Bounds.edge ⟨center, dims⟩ c + p := by
  obtain ⟨dx, dy⟩ := dims
  obtain ⟨cx, cy⟩ := center
  have hd : ((⟨dx, dy⟩ : Vec2) + Vec2.new p p * fin 2) =
      ⟨dx + p * fin 2, dy + p * fin 2⟩ := rfl
  rw [hd]
  cases c
  · show -(cx - (dx + p * fin 2) * fin (1/2)) = -(cx - dx * fin (1/2)) + p
    rw [mulF_half_shift]
    exact negF_sub_add cx (dx * fin (1/2)) p
  · show -(cy - (dy + p * fin 2) * fin (1/2)) = -(cy - dy * fin (1/2)) + p
    rw [mulF_half_shift]
    exact negF_sub_add cy (dy * fin (1/2)) p
  · show cx + (dx + p * fin 2) * fin (1/2) = cx + dx * fin (1/2) + p
    rw [mulF_half_shift]
    exact (F.addF_assoc _ _ _).symm
  · show cy + (dy + p * fin 2) * fin (1/2) = cy + dy * fin (1/2) + p
    rw [mulF_half_shift]
    exact (F.addF_assoc _ _ _).symm

theorem inflated_card_overlap_swap (u v du dv : Vec2) (p : F) (c : Card) :
    Bounds.card_overlap ⟨v, dv + Vec2.new p p * fin 2⟩ ⟨u, du⟩ c =
      Bounds.card_overlap ⟨u, du + Vec2.new p p * fin 2⟩ ⟨v, dv⟩ c.flip := by
  unfold Bounds.card_overlap
  rw [flip_flip, edge_inflate, edge_inflate]
  exact addF_shuffle _ _ _

theorem card_pairs_inflate_perm (a b : DurHitbox) (p : F) (k1 k2 : ShapeKind) :
    (card_pairs ⟨⟨b.value.pos, ⟨k2, b.value.dims + Vec2.new p p * fin 2⟩⟩, b.vel⟩ a).Perm
      (card_pairs ⟨⟨a.value.pos, ⟨k1, a.value.dims + Vec2.new p p * fin 2⟩⟩, a.vel⟩ b) := by
  have hfun : (fun c => (PlacedShape.card_overlap
        ⟨b.value.pos, ⟨k2, b.value.dims + Vec2.new p p * fin 2⟩⟩ a.value c,
      DurHbVel.card_overlap b.vel a.vel c)) = fun c =>
      (PlacedShape.card_overlap
          ⟨a.value.pos, ⟨k1, a.value.dims + Vec2.new p p * fin 2⟩⟩ b.value c.flip,
        DurHbVel.card_overlap a.vel b.vel c.flip) := by
    funext c
    dsimp only
    unfold PlacedShape.card_overlap DurHbVel.card_overlap
    have h1 : (⟨b.value.pos, ⟨k2, b.value.dims + Vec2.new p p * fin 2⟩⟩ :
        PlacedShape).bounds = ⟨b.value.pos, b.value.dims + Vec2.new p p * fin 2⟩ := rfl
    have h2 : (⟨a.value.pos, ⟨k1, a.value.dims + Vec2.new p p * fin 2⟩⟩ :
        PlacedShape).bounds = ⟨a.value.pos, a.value.dims + Vec2.new p p * fin 2⟩ := rfl
    have h3 : a.value.bounds = ⟨a.value.pos, a.value.dims⟩ := rfl
    have h4 : b.value.bounds = ⟨b.value.pos, b.value.dims⟩ := rfl
    rw [h1, h2, h3, h4,
      inflated_card_overlap_swap a.value.pos b.value.pos a.value.dims b.value.dims p c,
      bounds_card_overlap_swap a.vel.bounds b.vel.bounds c]
  unfold card_pairs
  dsimp only
  rw [hfun]
  exact values_map_flip_perm fun c => (PlacedShape.card_overlap
      ⟨a.value.pos, ⟨k1, a.value.dims + Vec2.new p p * fin 2⟩⟩ b.value c,
    DurHbVel.card_overlap a.vel b.vel c)

theorem rect_rect_time_inflate_symm (a b : DurHitbox) (p : F) (k1 k2 : ShapeKind)
    (fc : Bool) :
    rect_rect_time ⟨⟨b.value.pos, ⟨k2, b.value.dims + Vec2.new p p * fin 2⟩⟩, b.vel⟩ a fc =
      rect_rect_time ⟨⟨a.value.pos, ⟨k1, a.value.dims + Vec2.new p p * fin 2⟩⟩, a.vel⟩ b fc := by
  unfold rect_rect_time
  exact rect_rect_loop_perm fc (card_pairs_inflate_perm a b p k1 k2) (fin 0) pinf (by simp)

theorem circle_circle_time_inflate_symm (a b : DurHitbox) (p : F) (k1 k2 : ShapeKind) :
    circle_circle_time
        ⟨⟨b.value.pos, ⟨k2, b.value.dims + Vec2.new p p * fin 2⟩⟩, b.vel⟩ a false =
      circle_circle_time
        ⟨⟨a.value.pos, ⟨k1, a.value.dims + Vec2.new p p * fin 2⟩⟩, a.vel⟩ b false := by
  unfold circle_circle_time
  show circle_circle_core false ((b.value.dims + Vec2.new p p * fin 2).x + a.value.dims.x)
      (b.value.pos - a.value.pos) (b.vel.resize.x + a.vel.resize.x)
      (b.vel.value - a.vel.value) =
    circle_circle_core false ((a.value.dims + Vec2.new p p * fin 2).x + b.value.dims.x)
      (a.value.pos - b.value.pos) (a.vel.resize.x + b.vel.resize.x)
      (a.vel.value - b.vel.value)
  have hbx : (b.value.dims + Vec2.new p p * fin 2).x = b.value.dims.x + p * fin 2 := rfl
  have hax : (a.value.dims + Vec2.new p p * fin 2).x = a.value.dims.x + p * fin 2 := rfl
  rw [hbx, hax, addF_shuffle b.value.dims.x a.value.dims.x (p * fin 2),
    F.addF_comm b.vel.resize.x a.vel.resize.x,
    show b.value.pos - a.value.pos = -(a.value.pos - b.value.pos) from
      (vec_neg_sub a.value.pos b.value.pos).symm,
    show b.vel.value - a.vel.value = -(a.vel.value - b.vel.value) from
      (vec_neg_sub a.vel.value b.vel.value).symm,
    circle_circle_core_neg]

theorem placed_card_overlap_swap (x y : PlacedShape) (c : Card) :
    PlacedShape.card_overlap y x c = PlacedShape.card_overlap x y c.flip := by
  unfold PlacedShape.card_overlap
  exact bounds_card_overlap_swap x.bounds y.bounds c

theorem bool_and_block_comm (b1 b2 b3 b4 : Bool) :
    (b3 && (b4 && (b1 && b2))) = (b1 && (b2 && (b3 && b4))) := by
  cases b1 <;> cases b2 <;> cases b3 <;> cases b4 <;> rfl

theorem overlaps_symm (x y : PlacedShape) : x.overlaps y = y.overlaps x := by
  unfold PlacedShape.overlaps
  simp only [Card.values, List.all_cons, List.all_nil, Bool.and_true]
  rw [placed_card_overlap_swap y x Card.minusX, placed_card_overlap_swap y x Card.minusY,
    placed_card_overlap_swap y x Card.plusX, placed_card_overlap_swap y x Card.plusY]
  simp only [Card.flip]
  exact bool_and_block_comm _ _ _ _

theorem time_unpadded_result_collide_symm (a b : DurHitbox) (d : F) :
    time_unpadded_result b a true d = time_unpadded_result a b true d := by
  cases hka : a.value.kind <;> cases hkb : b.value.kind <;>
    simp only [time_unpadded_result, hka, hkb] <;>
    first
      | rfl
      | rw [rect_rect_time_symm]
      | rw [circle_circle_time_symm]

theorem time_unpadded_collide_symm (a b : DurHitbox) (d : F) :
    time_unpadded b a true d = time_unpadded a b true d := by
  unfold time_unpadded
  rw [time_unpadded_result_collide_symm]

theorem collide_time_symm (a b : DurHitbox) :
    collide_time b a = collide_time a b := by
  simp only [collide_time]
  rw [min_comm b.vel.duration a.vel.duration]
  cases hba : a.bounding_box_for (min a.vel.duration b.vel.duration) with
  | none =>
    cases hbb : b.bounding_box_for (min a.vel.duration b.vel.duration) with
    | none => simp [hba, hbb]
    | some bb => simp [hba, hbb]
  | some ba =>
    cases hbb : b.bounding_box_for (min a.vel.duration b.vel.duration) with
    | none => simp [hba, hbb]
    | some bb =>
      simp only [hba, hbb, Option.some_bind]
      rw [overlaps_symm bb ba, time_unpadded_collide_symm]

theorem separate_time_symm (a b : DurHitbox) (p : F)
    (ha : a.value.kind = ShapeKind.circle → a.value.dims.x = a.value.dims.y)
    (hb : b.value.kind = ShapeKind.circle → b.value.dims.x = b.value.dims.y) :
    separate_time b a p = separate_time a b p := by
  cases hka : a.value.kind <;> cases hkb : b.value.kind
  · -- rect × rect
    simp only [separate_time, hka, hkb, Shape.new_rect, Option.some_bind]
    rw [min_comm b.vel.duration a.vel.duration]
    have hka' : a.value.shape.kind = ShapeKind.rect := hka
    have hkb' : b.value.shape.kind = ShapeKind.rect := hkb
    simp only [time_unpadded, time_unpadded_result, PlacedShape.kind, hka', hkb']
    rw [rect_rect_time_inflate_symm a b p ShapeKind.rect ShapeKind.rect false]
  · -- a rect, b circle: both orders swap to (b, a)
    simp only [separate_time, hka, hkb]
  · -- a circle, b rect: both orders swap to (a, b)
    simp only [separate_time, hka, hkb]
  · -- circle × circle
    have hai : (a.value.dims + Vec2.new p p * fin 2).x =
        (a.value.dims + Vec2.new p p * fin 2).y := by
      show a.value.dims.x + p * fin 2 = a.value.dims.y + p * fin 2
      rw [ha hka]
    have hbi : (b.value.dims + Vec2.new p p * fin 2).x =
        (b.value.dims + Vec2.new p p * fin 2).y := by
      show b.value.dims.x + p * fin 2 = b.value.dims.y + p * fin 2
      rw [hb hkb]
    simp only [separate_time, hka, hkb, Shape.new_circle_iso hai,
      Shape.new_circle_iso hbi, Option.some_bind]
    rw [min_comm b.vel.duration a.vel.duration]
    have hka' : a.value.shape.kind = ShapeKind.circle := hka
    have hkb' : b.value.shape.kind = ShapeKind.circle := hkb
    simp only [time_unpadded, time_unpadded_result, PlacedShape.kind, hka', hkb']
    rw [circle_circle_time_inflate_symm a b p ShapeKind.circle ShapeKind.circle]

/-- C2: the solver is symmetric in its two hitboxes: `collide_time(a, b) =
collide_time(b, a)` unconditionally, and `separate_time(a, b, padding) =
separate_time(b, a, padding)` for every padding, for hitboxes satisfying the
shape contract (a circle's dims are isotropic); this covers the mixed
rect/circle path, where both orders swap the pair to (circle, rect) and
inflate the circle. -/
theorem spec_c2_solver_symmetry (a b : DurHitbox) (padding : F)
    (ha : a.value.kind = ShapeKind.circle → a.value.dims.x = a.value.dims.y)
    (hb : b.value.kind = ShapeKind.circle → b.value.dims.x = b.value.dims.y) :
    collide_time b a = collide_time a b ∧
    separate_time b a padding = separate_time a b padding :=
  ⟨collide_time_symm a b, separate_time_symm a b padding ha hb⟩

/-- Witness for C2 at the sample rect pair (both shape contracts hold
vacuously). -/
theorem spec_c2_solver_symmetry_witness :
    collide_time sample_rect_b sample_rect_a = collide_time sample_rect_a sample_rect_b ∧
    separate_time sample_rect_b sample_rect_a (fin 0) =
      separate_time sample_rect_a sample_rect_b (fin 0) :=
  spec_c2_solver_symmetry sample_rect_a sample_rect_b (fin 0)
    (fun h => ShapeKind.noConfusion h) (fun h => ShapeKind.noConfusion h)

/-! ### Totality and range (claim C3) -/

theorem addF_nonneg {x y : F} (hx : fin 0 ≤ x) (hy : fin 0 ≤ y) : fin 0 ≤ x + y := by
  cases x <;> cases y <;>
    simp_all [F.add_def, F.add] <;>
    linarith

theorem epsilon_not_nonpos {det : F} (h : ¬ det ≤ fin 0) :
    ¬ det / fin 1000000 ≤ fin 0 := by
  cases det with
  | ninf => exact absurd (by simp) h
  | fin q =>
    rw [F.fin_div_fin q 1000000 (by norm_num)]
    simp_all only [F.fin_le_fin, not_le]
    positivity
  | pinf =>
    show ¬ F.div pinf (fin 1000000) ≤ fin 0
    simp [F.div]
  | nan =>
    show ¬ F.div nan (fin 1000000) ≤ fin 0
    simp [F.div]

theorem quad_root_ascending_isSome (u v w : F) :
    (quad_root_ascending u v w).isSome = true := by
  simp only [quad_root_ascending]
  by_cases hd : v * v - u * w * fin 4 ≤ fin 0
  · rw [if_pos hd]
    rfl
  · rw [if_neg hd]
    have h1 : ¬ v * v - u * w * fin 4 < fin 0 := fun h => hd (le_of_lt h)
    have h2 : ¬ (v * v - u * w * fin 4) / fin 1000000 ≤ fin 0 := epsilon_not_nonpos hd
    unfold approx_square_root
    rw [if_neg h1, if_neg h2]
    by_cases hb : fin 0 ≤ v
    · rw [if_pos hb]
      rfl
    · rw [if_neg hb]
      rfl

theorem circle_circle_core_total (fc : Bool) (ds rs : F) (dist dv : Vec2) :
    ∃ r, circle_circle_core fc ds dist rs dv = some r ∧ fin 0 ≤ r := by
  simp only [circle_circle_core]
  by_cases h0 : fin 0 < (if fc then fin 1 else fin (-1)) *
      (ds * fin (1/2) * (ds * fin (1/2)) - dist.len_sq)
  · rw [if_pos h0]
    exact ⟨fin 0, rfl, le_refl _⟩
  · rw [if_neg h0]
    cases hq : quad_root_ascending
        ((if fc then fin 1 else fin (-1)) *
          (rs * fin (1/2) * (rs * fin (1/2)) - dv.len_sq))
        ((if fc then fin 1 else fin (-1)) * fin 2 *
          (ds * fin (1/2) * (rs * fin (1/2)) - dist * dv))
        ((if fc then fin 1 else fin (-1)) *
          (ds * fin (1/2) * (ds * fin (1/2)) - dist.len_sq)) with
    | none =>
      have hs := quad_root_ascending_isSome
        ((if fc then fin 1 else fin (-1)) *
          (rs * fin (1/2) * (rs * fin (1/2)) - dv.len_sq))
        ((if fc then fin 1 else fin (-1)) * fin 2 *
          (ds * fin (1/2) * (rs * fin (1/2)) - dist * dv))
        ((if fc then fin 1 else fin (-1)) *
          (ds * fin (1/2) * (ds * fin (1/2)) - dist.len_sq))
      rw [hq] at hs
      simp at hs
    | some root =>
      rw [Option.map_some']
      refine ⟨_, rfl, ?_⟩
      cases root with
      | none => simp
      | some r =>
        dsimp only
        by_cases hr : fin 0 ≤ r
        · rw [if_pos hr]
          exact hr
        · rw [if_neg hr]
          simp

theorem neg_div_nonneg {o v : F} (ho : ¬ o < fin 0) (hv : v < fin 0) :
    fin 0 ≤ -o / v := by
  cases o with
  | ninf => exact absurd (by simp) ho
  | nan =>
    cases v <;> simp_all [F.neg_def, F.div_def, F.neg, F.div]
  | pinf =>
    cases v with
    | ninf =>
      show fin 0 ≤ F.div (F.neg pinf) ninf
      simp [F.neg, F.div]
    | fin r =>
      have hr : ¬ (0 : ℚ) ≤ r := fun h =>
        absurd hv (not_lt.mpr (F.fin_le_fin.mpr h))
      show fin 0 ≤ F.div (F.neg pinf) (fin r)
      simp [F.neg, F.div, hr]
    | pinf => exact absurd hv (by simp)
    | nan => exact absurd hv (by simp)
  | fin q =>
    have hq : (0 : ℚ) ≤ q := not_lt.mp (by simpa using ho)
    cases v with
    | ninf =>
      show fin 0 ≤ F.div (F.neg (fin q)) ninf
      simp [F.neg, F.div]
    | fin r =>
      have hr : r < 0 := by simpa using hv
      rw [show -fin q = fin (-q) from rfl, F.fin_div_fin (-q) r (ne_of_lt hr)]
      exact F.fin_le_fin.mpr
        (div_nonneg_of_nonpos (by linarith) (le_of_lt hr))
    | pinf => exact absurd hv (by simp)
    | nan => exact absurd hv (by simp)

theorem rect_rect_loop_nonneg (fc : Bool) (l : List (F × F)) (os oe : F)
    (hos : fin 0 ≤ os) (hoe : fin 0 ≤ oe) : fin 0 ≤ rect_rect_loop fc l os oe := by
  induction l generalizing os oe with
  | nil =>
    rw [rect_rect_loop]
    cases fc
    · exact hoe
    · exact hos
  | cons hd tl ih =>
    obtain ⟨o, v⟩ := hd
    rw [rect_rect_loop]
    dsimp only
    by_cases ho : o < fin 0
    · rw [if_pos ho]
      cases fc
      · rw [if_pos rfl]
      · rw [if_neg (by simp : ¬ (true = false))]
        by_cases hv : v ≤ fin 0
        · rw [if_pos hv]
          simp
        · rw [if_neg hv]
          by_cases hexit : oe ≤ max os (-o / v)
          · rw [if_pos hexit]
            simp
          · rw [if_neg hexit]
            exact ih _ _ (le_trans hos (le_max_left _ _)) hoe
    · rw [if_neg ho]
      have hoe' : fin 0 ≤ if v < fin 0 then min oe (-o / v) else oe := by
        by_cases hv : v < fin 0
        · rw [if_pos hv]
          exact le_min hoe (neg_div_nonneg ho hv)
        · rw [if_neg hv]
          exact hoe
      by_cases hexit : (if v < fin 0 then min oe (-o / v) else oe) ≤ os
      · rw [if_pos hexit]
        cases fc
        · exact le_refl _
        · simp
      · rw [if_neg hexit]
        exact ih _ _ hos hoe'

theorem rect_rect_time_nonneg (a b : DurHitbox) (fc : Bool) :
    fin 0 ≤ rect_rect_time a b fc :=
  rect_rect_loop_nonneg fc (card_pairs a b) (fin 0) pinf (le_refl _) (by simp)

theorem advanced_shape_some (h : DurHitbox) (t : F)
    (hiso : h.value.kind = ShapeKind.circle →
      h.value.dims.x = h.value.dims.y ∧ h.vel.resize.x = h.vel.resize.y) :
    ∃ s, h.advanced_shape t = some s := by
  unfold DurHitbox.advanced_shape PlacedShape.advance
  cases hk : h.value.shape.kind with
  | rect =>
    rw [Shape.new_rect]
    exact ⟨_, rfl⟩
  | circle =>
    obtain ⟨hd, hr⟩ := hiso hk
    have hd' : h.value.shape.dims.x = h.value.shape.dims.y := hd
    have hx : (h.value.shape.dims + h.vel.resize * t).x =
        (h.value.shape.dims + h.vel.resize * t).y := by
      show h.value.shape.dims.x + h.vel.resize.x * t =
        h.value.shape.dims.y + h.vel.resize.y * t
      rw [hd', hr]
    rw [Shape.new_circle_iso hx]
    exact ⟨_, rfl⟩

theorem bounding_box_for_some (h : DurHitbox) (d : F)
    (hiso : h.value.kind = ShapeKind.circle →
      h.value.dims.x = h.value.dims.y ∧ h.vel.resize.x = h.vel.resize.y) :
    ∃ s, h.bounding_box_for d = some s := by
  unfold DurHitbox.bounding_box_for
  by_cases hs : h.vel.is_still
  · rw [if_pos hs]
    exact ⟨_, rfl⟩
  · rw [if_neg hs]
    obtain ⟨s, hsome⟩ := advanced_shape_some h d hiso
    rw [hsome]
    exact ⟨_, rfl⟩

theorem rebased_total (rect circle : DurHitbox) :
    ∃ t, rebased_rect_circle_collide_time rect circle = some t ∧ fin 0 ≤ t := by
  simp only [rebased_rect_circle_collide_time]
  by_cases hc : (rect.value.sector circle.value.pos).is_corner
  · rw [if_pos hc]
    unfold circle_circle_time
    exact circle_circle_core_total true _ _ _ _
  · rw [if_neg hc]
    exact ⟨fin 0, rfl, le_refl _⟩

theorem rect_circle_time_total (rect circle : DurHitbox) (fc : Bool) (d : F)
    (hr : rect.value.kind = ShapeKind.circle →
      rect.value.dims.x = rect.value.dims.y ∧ rect.vel.resize.x = rect.vel.resize.y)
    (hc : circle.value.kind = ShapeKind.circle →
      circle.value.dims.x = circle.value.dims.y ∧
        circle.vel.resize.x = circle.vel.resize.y) :
    ∃ r, rect_circle_time rect circle fc d = some r ∧ fin 0 ≤ r := by
  cases fc
  · show ∃ r, rect_circle_separate_time rect circle = some r ∧ fin 0 ≤ r
    simp only [rect_circle_separate_time]
    by_cases hz : rect_rect_time rect circle false = fin 0
    · rw [if_pos hz]
      exact ⟨fin 0, rfl, le_refl _⟩
    · rw [if_neg hz]
      obtain ⟨rv, hrv⟩ := advanced_shape_some rect _ hr
      obtain ⟨cv, hcv⟩ := advanced_shape_some circle _ hc
      rw [hrv, hcv]
      simp only [Option.some_bind]
      obtain ⟨t, ht, htn⟩ := rebased_total ⟨rv, rect.vel.negate⟩ ⟨cv, circle.vel.negate⟩
      rw [ht]
      exact ⟨_, rfl, le_max_right _ _⟩
  · show ∃ r, rect_circle_collide_time rect circle d = some r ∧ fin 0 ≤ r
    simp only [rect_circle_collide_time]
    by_cases hd : d ≤ rect_rect_time rect circle true
    · rw [if_pos hd]
      exact ⟨pinf, rfl, by simp⟩
    · rw [if_neg hd]
      obtain ⟨rv, hrv⟩ := advanced_shape_some rect _ hr
      obtain ⟨cv, hcv⟩ := advanced_shape_some circle _ hc
      rw [hrv, hcv]
      simp only [Option.some_bind]
      obtain ⟨t, ht, htn⟩ := rebased_total ⟨rv, rect.vel⟩ ⟨cv, circle.vel⟩
      rw [ht]
      exact ⟨_, rfl, addF_nonneg (rect_rect_time_nonneg rect circle true) htn⟩

theorem time_unpadded_result_total (a b : DurHitbox) (fc : Bool) (d : F)
    (ha : a.value.kind = ShapeKind.circle →
      a.value.dims.x = a.value.dims.y ∧ a.vel.resize.x = a.vel.resize.y)
    (hb : b.value.kind = ShapeKind.circle →
      b.value.dims.x = b.value.dims.y ∧ b.vel.resize.x = b.vel.resize.y) :
    ∃ r, time_unpadded_result a b fc d = some r ∧ fin 0 ≤ r := by
  cases hka : a.value.kind <;> cases hkb : b.value.kind <;>
    simp only [time_unpadded_result, hka, hkb]
  · exact ⟨_, rfl, rect_rect_time_nonneg a b fc⟩
  · exact rect_circle_time_total a b fc d ha hb
  · exact rect_circle_time_total b a fc d hb ha
  · unfold circle_circle_time
    exact circle_circle_core_total fc _ _ _ _

theorem time_unpadded_total (a b : DurHitbox) (fc : Bool) (d : F)
    (ha : a.value.kind = ShapeKind.circle →
      a.value.dims.x = a.value.dims.y ∧ a.vel.resize.x = a.vel.resize.y)
    (hb : b.value.kind = ShapeKind.circle →
      b.value.dims.x = b.value.dims.y ∧ b.vel.resize.x = b.vel.resize.y) :
    ∃ x, time_unpadded a b fc d = some x ∧ fin 0 ≤ x ∧ x ≤ pinf := by
  obtain ⟨r, hr, hrn⟩ := time_unpadded_result_total a b fc d ha hb
  unfold time_unpadded
  rw [hr, Option.map_some']
  refine ⟨_, rfl, ?_, ?_⟩
  · by_cases hd : d ≤ r
    · rw [if_pos hd]
      simp
    · rw [if_neg hd]
      exact hrn
  · by_cases hd : d ≤ r
    · rw [if_pos hd]
    · rw [if_neg hd, F.le_pinf_iff]
      intro hn
      rw [hn] at hd
      exact hd (F.le_nan d)

theorem collide_time_total (a b : DurHitbox)
    (ha : a.value.kind = ShapeKind.circle →
      a.value.dims.x = a.value.dims.y ∧ a.vel.resize.x = a.vel.resize.y)
    (hb : b.value.kind = ShapeKind.circle →
      b.value.dims.x = b.value.dims.y ∧ b.vel.resize.x = b.vel.resize.y) :
    ∃ x, collide_time a b = some x ∧ fin 0 ≤ x ∧ x ≤ pinf := by
  simp only [collide_time]
  obtain ⟨ba, hba⟩ := bounding_box_for_some a (min a.vel.duration b.vel.duration) ha
  obtain ⟨bb, hbb⟩ := bounding_box_for_some b (min a.vel.duration b.vel.duration) hb
  rw [hba, hbb]
  simp only [Option.some_bind]
  by_cases hov : ba.overlaps bb
  · rw [if_pos hov]
    exact time_unpadded_total a b true _ ha hb
  · rw [if_neg hov]
    exact ⟨pinf, rfl, by simp, le_refl _⟩

theorem separate_time_total (a b : DurHitbox) (padding : F)
    (ha : a.value.kind = ShapeKind.circle →
      a.value.dims.x = a.value.dims.y ∧ a.vel.resize.x = a.vel.resize.y)
    (hb : b.value.kind = ShapeKind.circle →
      b.value.dims.x = b.value.dims.y ∧ b.vel.resize.x = b.vel.resize.y) :
    ∃ y, separate_time a b padding = some y ∧ fin 0 ≤ y ∧ y ≤ pinf := by
  cases hka : a.value.kind <;> cases hkb : b.value.kind
  · simp only [separate_time, hka, hkb, Shape.new_rect, Option.some_bind]
    exact time_unpadded_total
      ⟨⟨a.value.pos, ⟨ShapeKind.rect, a.value.dims + Vec2.new padding padding * fin 2⟩⟩,
        a.vel⟩ b false _ (fun h => ShapeKind.noConfusion h) hb
  · simp only [separate_time, hka, hkb]
    have hbi : (b.value.dims + Vec2.new padding padding * fin 2).x =
        (b.value.dims + Vec2.new padding padding * fin 2).y := by
      show b.value.dims.x + padding * fin 2 = b.value.dims.y + padding * fin 2
      rw [(hb hkb).1]
    rw [Shape.new_circle_iso hbi]
    simp only [Option.some_bind]
    exact time_unpadded_total
      ⟨⟨b.value.pos, ⟨ShapeKind.circle, b.value.dims + Vec2.new padding padding * fin 2⟩⟩,
        b.vel⟩ a false _ (fun _ => ⟨hbi, (hb hkb).2⟩) ha
  · simp only [separate_time, hka, hkb]
    have hai : (a.value.dims + Vec2.new padding padding * fin 2).x =
        (a.value.dims + Vec2.new padding padding * fin 2).y := by
      show a.value.dims.x + padding * fin 2 = a.value.dims.y + padding * fin 2
      rw [(ha hka).1]
    rw [Shape.new_circle_iso hai]
    simp only [Option.some_bind]
    exact time_unpadded_total
      ⟨⟨a.value.pos, ⟨ShapeKind.circle, a.value.dims + Vec2.new padding padding * fin 2⟩⟩,
        a.vel⟩ b false _ (fun _ => ⟨hai, (ha hka).2⟩) hb
  · simp only [separate_time, hka, hkb]
    have hai : (a.value.dims + Vec2.new padding padding * fin 2).x =
        (a.value.dims + Vec2.new padding padding * fin 2).y := by
      show a.value.dims.x + padding * fin 2 = a.value.dims.y + padding * fin 2
      rw [(ha hka).1]
    rw [Shape.new_circle_iso hai]
    simp only [Option.some_bind]
    exact time_unpadded_total
      ⟨⟨a.value.pos, ⟨ShapeKind.circle, a.value.dims + Vec2.new padding padding * fin 2⟩⟩,
        a.vel⟩ b false _ (fun _ => ⟨hai, (ha hka).2⟩) hb

/-- A division returning `none` on a zero divisor; used only to state that the
rect-rect loop's sign tests protect its `-overlap/rate` divisions. -/
def div_checked (x y : F) : Option F := if y = fin 0 then none else some (x / y)

/-- The rect-rect loop of `rect_rect_time` with each division routed through
`div_checked`: `none` would mean the loop divides by a zero overlap rate. -/
def rect_rect_loop_checked (fc : Bool) : List (F × F) → F → F → Option F
  | [], os, oe => some (if fc then os else oe)
  | (o, v) :: rest, os, oe =>
      if o < fin 0 then
        if fc = false then some (fin 0)
        else if v ≤ fin 0 then some pinf
        else
          (div_checked (-o) v).bind fun q =>
            if oe ≤ max os q then some pinf
            else rect_rect_loop_checked fc rest (max os q) oe
      else
        ((if v < fin 0 then (div_checked (-o) v).map fun q => min oe q
          else some oe).bind fun e =>
          if e ≤ os then some (if fc then pinf else fin 0)
          else rect_rect_loop_checked fc rest os e)

theorem rect_rect_loop_checked_eq (fc : Bool) (l : List (F × F)) (os oe : F) :
    rect_rect_loop_checked fc l os oe = some (rect_rect_loop fc l os oe) := by
  induction l generalizing os oe with
  | nil => rw [rect_rect_loop_checked, rect_rect_loop]
  | cons hd tl ih =>
    obtain ⟨o, v⟩ := hd
    rw [rect_rect_loop_checked, rect_rect_loop]
    dsimp only
    by_cases ho : o < fin 0
    · rw [if_pos ho, if_pos ho]
      cases fc
      · rw [if_pos rfl, if_pos rfl]
      · rw [if_neg (by simp : ¬ (true = false)), if_neg (by simp : ¬ (true = false))]
        by_cases hv : v ≤ fin 0
        · rw [if_pos hv, if_pos hv]
        · rw [if_neg hv, if_neg hv]
          have hvz : v ≠ fin 0 := fun h => hv (le_of_eq h)
          simp only [div_checked, if_neg hvz, Option.some_bind]
          by_cases hexit : oe ≤ max os (-o / v)
          · rw [if_pos hexit, if_pos hexit]
          · rw [if_neg hexit, if_neg hexit]
            exact ih _ _
    · rw [if_neg ho, if_neg ho]
      by_cases hv : v < fin 0
      · rw [if_pos hv, if_pos hv]
        have hvz : v ≠ fin 0 := ne_of_lt hv
        simp only [div_checked, if_neg hvz, Option.map_some', Option.some_bind]
        by_cases hexit : min oe (-o / v) ≤ os
        · rw [if_pos hexit, if_pos hexit]
        · rw [if_neg hexit, if_neg hexit]
          exact ih _ _
      · rw [if_neg hv, if_neg hv]
        simp only [Option.some_bind]
        by_cases hexit : oe ≤ os
        · rw [if_pos hexit, if_pos hexit]
        · rw [if_neg hexit, if_neg hexit]
          exact ih _ _

/-- C3: for hitboxes whose shapes have nonnegative dims and whose circles are
isotropic (in dims — the shape contract — and in resize), `collide_time` and
`separate_time` return normally with a value in `[0, +∞]`; moreover
`quad_root_ascending` never hits the `.unwrap()` panic of its inner
`approx_square_root` call (a positive determinant yields a positive epsilon
`determinant / 10^6`), and every `-overlap/rate` division of the rect-rect
loop has a nonzero divisor (the checked-division loop never aborts). -/
theorem spec_c3_solver_totality (a b : DurHitbox) (padding : F)
    (hadx : fin 0 ≤ a.value.dims.x) (hady : fin 0 ≤ a.value.dims.y)
    (hbdx : fin 0 ≤ b.value.dims.x) (hbdy : fin 0 ≤ b.value.dims.y)
    (ha : a.value.kind = ShapeKind.circle →
      a.value.dims.x = a.value.dims.y ∧ a.vel.resize.x = a.vel.resize.y)
    (hb : b.value.kind = ShapeKind.circle →
      b.value.dims.x = b.value.dims.y ∧ b.vel.resize.x = b.vel.resize.y) :
    (∃ x, collide_time a b = some x ∧ fin 0 ≤ x ∧ x ≤ pinf) ∧
    (∃ y, separate_time a b padding = some y ∧ fin 0 ≤ y ∧ y ≤ pinf) ∧
    (∀ u v w : F, (quad_root_ascending u v w).isSome = true) ∧
    (∀ det : F, fin 0 < det → fin 0 < det / fin 1000000) ∧
    (∀ fc : Bool, rect_rect_loop_checked fc (card_pairs a b) (fin 0) pinf =
      some (rect_rect_time a b fc)) :=
  ⟨collide_time_total a b ha hb,
   separate_time_total a b padding ha hb,
   fun u v w => quad_root_ascending_isSome u v w,
   fun _ h => epsilon_not_nonpos h,
   fun fc => rect_rect_loop_checked_eq fc (card_pairs a b) (fin 0) pinf⟩

/-- Witness for C3 at the sample rect pair (nonnegative dims `2×2` and `2×4`,
circle contracts vacuous). -/
theorem spec_c3_solver_totality_witness :
    ((∃ x, collide_time sample_rect_a sample_rect_b = some x ∧
        fin 0 ≤ x ∧ x ≤ pinf) ∧
      (∃ y, separate_time sample_rect_a sample_rect_b (fin 0) = some y ∧
        fin 0 ≤ y ∧ y ≤ pinf) ∧
      (∀ u v w : F, (quad_root_ascending u v w).isSome = true) ∧
      (∀ det : F, fin 0 < det → fin 0 < det / fin 1000000) ∧
      (∀ fc : Bool, rect_rect_loop_checked fc (card_pairs sample_rect_a sample_rect_b)
        (fin 0) pinf = some (rect_rect_time sample_rect_a sample_rect_b fc))) :=
  spec_c3_solver_totality sample_rect_a sample_rect_b (fin 0)
    (by norm_num [sample_rect_a, PlacedShape.dims])
    (by norm_num [sample_rect_a, PlacedShape.dims])
    (by norm_num [sample_rect_b, PlacedShape.dims])
    (by norm_num [sample_rect_b, PlacedShape.dims])
    (fun h => ShapeKind.noConfusion h) (fun h => ShapeKind.noConfusion h)

end Collider
